import Mathlib

/-!
# Verification of the Dutch Dictation trainer core

Shallow embedding of the grading engine (`normalizeText`, `cleanWord`,
`generateDiff`, `handleSubmit` from the main App component), the host's
`startProcessing` transcription flow, and the segment playback controller
(`AudioSlicerPlayer`: `handlePlay`, the `checkTime` boundary-watcher, and the
unmount cleanup effect).

Strings are modelled as `List Char`.  JavaScript string operations are given
their ECMAScript semantics:
* `String.prototype.toLowerCase` is modelled on the ASCII range (`lowerChar`);
* `replace(/[.,!?;:]/g, "")` is a filter dropping those six characters;
* `trim()` removes the JS whitespace set from both ends;
* `split(/\s+/)` splits on maximal nonempty whitespace runs, producing a
  leading (resp. trailing) empty token when the string starts (resp. ends)
  with whitespace, and `[""]` on the empty string.

Audio timestamps (floats in the source) are modelled as rationals: every
claim about them only involves order comparisons.
-/

namespace Dictation

/-- The JS whitespace set: the characters matched by the regex class `\s`,
which is also the set stripped by `String.prototype.trim`. -/
def wsChars : List Char :=
  ['\u0009', '\u000A', '\u000B', '\u000C', '\u000D', ' ',
   '\u00A0', '\u1680', '\u2000', '\u2001', '\u2002', '\u2003', '\u2004',
   '\u2005', '\u2006', '\u2007', '\u2008', '\u2009', '\u200A',
   '\u2028', '\u2029', '\u202F', '\u205F', '\u3000', '\uFEFF']

/-- Whether a character is JS whitespace. -/
def isWS (c : Char) : Bool := wsChars.contains c

/-- The fixed punctuation class `[.,!?;:]` removed by `cleanWord` and
`normalizeText` (`replace(/[.,!?;:]/g, "")`). -/
def isPunct (c : Char) : Bool := ['.', ',', '!', '?', ';', ':'].contains c

/-- ASCII model of `String.prototype.toLowerCase`, applied characterwise:
uppercase `A`..`Z` (code points 65..90) map to `a`..`z`, everything else is
fixed. -/
def lowerChar (c : Char) : Char :=
  if 65 ≤ c.toNat ∧ c.toNat ≤ 90 then Char.ofNat (c.toNat + 32) else c

/-- Model of `trimStart`: drop leading JS whitespace. -/
def trimLeft (s : List Char) : List Char := s.dropWhile isWS

/-- Model of `trimEnd`: drop trailing JS whitespace. -/
def trimRight (s : List Char) : List Char := (s.reverse.dropWhile isWS).reverse

/-- Model of `String.prototype.trim`: drop whitespace at both ends. -/
def jsTrim (s : List Char) : List Char := trimRight (trimLeft s)

/-- Source `normalizeText` (App component):
`text.toLowerCase().replace(/[.,!?;:]/g, "").trim()`. -/
def normalizeText (text : List Char) : List Char :=
  jsTrim ((text.map lowerChar).filter (fun c => !isPunct c))

/-- Source `cleanWord` (App component), textually identical to
`normalizeText`: `word.toLowerCase().replace(/[.,!?;:]/g, "").trim()`. -/
def cleanWord (word : List Char) : List Char :=
  jsTrim ((word.map lowerChar).filter (fun c => !isPunct c))

/-- The pass/fail decision of `handleSubmit`:
`normalizeText(userInput) === normalizeText(reference)`. -/
def isMatch (reference userInput : List Char) : Bool :=
  normalizeText userInput == normalizeText reference

/-- Helper for `splitWs`: `acc` is the current token (in reverse), and
`inRun` records whether the previous character was whitespace, i.e. whether
we are inside a separator run whose first character already emitted the
pending token (so the remaining run characters emit nothing). -/
def splitWsAux : List Char → List Char → Bool → List (List Char)
  | [], acc, _ => [acc.reverse]
  | c :: cs, acc, inRun =>
    if isWS c then
      if inRun then splitWsAux cs [] true
      else acc.reverse :: splitWsAux cs [] true
    else
      splitWsAux cs (c :: acc) false

/-- Model of `str.split(/\s+/)`: split on maximal nonempty whitespace runs.
Leading/trailing whitespace contributes an empty first/last token, and the
empty string yields `[""]`, exactly as in ECMAScript. -/
def splitWs (s : List Char) : List (List Char) := splitWsAux s [] false

/-- The `DiffWord` record of the source: one annotated reference word. -/
structure DiffWord where
  text : List Char
  isCorrect : Bool
deriving DecidableEq

/-- The body of `generateDiff`'s `originalWords.map((word, index) => ...)`:
walks the reference words carrying the position `index`; a position is correct
iff the user token list has an entry at that index (`userWords[index]`,
`undefined` past the end, which is never `===` to a string) equal to the
cleaned reference word. -/
def diffAnnotate (userWords : List (List Char)) : Nat → List (List Char) → List DiffWord
  | _, [] => []
  | index, word :: rest =>
    { text := word, isCorrect := userWords.get? index == some (cleanWord word) }
      :: diffAnnotate userWords (index + 1) rest

/-- Source `generateDiff`: split both strings on whitespace runs, clean each
user token, and annotate each reference word positionally. -/
def generateDiff (original user : List Char) : List DiffWord :=
  diffAnnotate ((splitWs user).map cleanWord) 0 (splitWs original)

/-! ## Host session state and `handleSubmit` / `startProcessing` -/

/-- The `AudioSegment` record from `types.ts`. -/
structure AudioSegment where
  sentence : List Char
  startTime : ℚ
  endTime : ℚ
deriving DecidableEq

/-- The `feedback` state value set by `handleSubmit`. -/
structure Feedback where
  isCorrect : Bool
  original : List Char
  diff : List DiffWord
deriving DecidableEq

/-- The `AppStatus` enum from `types.ts`. -/
inductive AppStatus where
  | IDLE
  | PROCESSING
  | PRACTICING
  | COMPLETED
deriving DecidableEq

/-- The slice of App component state that `handleSubmit` reads and writes. -/
structure AppState where
  segments : List AudioSegment
  currentIndex : Nat
  userInput : List Char
  feedback : Option Feedback
deriving DecidableEq

/-- Source `handleSubmit`: bail out when `userInput.trim()` is empty (the JS
falsy check `if (!userInput.trim()) return;`), otherwise grade
`segments[currentIndex]` against the input and store the feedback.  Reading
`segments[currentIndex]` when the index is out of range would throw in JS
(property access on `undefined`), modelled as `none`. -/
def handleSubmit (st : AppState) : Option AppState :=
  if jsTrim st.userInput = [] then
    some st
  else
    (st.segments.get? st.currentIndex).map fun current =>
      let isCorrect := normalizeText st.userInput == normalizeText current.sentence
      let diff := generateDiff current.sentence st.userInput
      { st with feedback := some { isCorrect := isCorrect, original := current.sentence, diff := diff } }

/-- The slice of App component state that `startProcessing` touches. -/
structure HostState where
  status : AppStatus
  isProcessing : Bool
  error : Option (List Char)
  segments : List AudioSegment
  currentIndex : Nat
deriving DecidableEq

/-- The outcome of the asynchronous `transcribeAndSegment` call: either a
rejection (in `geminiService.ts` every upstream failure is rethrown as
`"Failed to transcribe audio. ..."`) or a resolved segment list. -/
def TranscribeOutcome := Except (List Char) (List AudioSegment)

/-- Synchronous body of `startProcessing`: with no `audioFile` it returns at
once; otherwise it sets `isProcessing`, clears `error`, moves the status to
`PROCESSING`, and hands control to the `FileReader` (the `try` block finishes
here — `reader.readAsDataURL` and the `reader.onload` assignment are the only
statements that can still throw into the surrounding `catch`). -/
def startProcessingSync (audioFilePresent : Bool) (st : HostState) : HostState :=
  if audioFilePresent then
    { st with isProcessing := true, error := none, status := AppStatus.PROCESSING }
  else st

/-- The `reader.onload` callback of `startProcessing`, run as a later task
with the transcription outcome.  The callback is an `async` arrow function:
a rejected `await transcribeAndSegment(...)` and the
`throw new Error("No sentences detected in the audio.")` on an empty result
both become unhandled promise rejections — the surrounding `try/catch` of
`startProcessing` already returned, so the `catch` block (which would set the
error message, clear `isProcessing` and reset the status to `IDLE`) never
runs and the state is left untouched on those paths. -/
def startProcessingOnload (st : HostState) (outcome : TranscribeOutcome) : HostState :=
  match outcome with
  | Except.error _ => st
  | Except.ok segs =>
    if segs.length = 0 then st
    else
      { st with segments := segs, status := AppStatus.PRACTICING,
                currentIndex := 0, isProcessing := false }

/-- End-to-end `startProcessing`: the synchronous part followed by the
`onload` continuation carrying the transcription outcome. -/
def startProcessing (audioFilePresent : Bool) (st : HostState)
    (outcome : TranscribeOutcome) : HostState :=
  if audioFilePresent then
    startProcessingOnload (startProcessingSync audioFilePresent st) outcome
  else st

/-! ## The playback controller (`AudioSlicerPlayer`)

The component is modelled as a labelled transition system.  A state carries
the audio element (`audioRef.current`), the list of `timeupdate` listeners
attached to it, the `checkTimeRef` cell, the `isPlaying` flag, and a counter
handing out a fresh identifier to each successful `play()` call so that the
`onStart`/`onEnd` callback invocations of different calls can be told apart.
Events are `play()` invocations, `timeupdate` ticks (the audio clock moved to
some position), and the unmount cleanup effect. -/

/-- The audio element: playhead position and paused flag. -/
structure AudioElem where
  currentTime : ℚ
  paused : Bool
deriving DecidableEq

/-- One `checkTime` closure: it captures the `endTime` of the `play()` call
that installed it, tagged with that call's identifier. -/
structure Watcher where
  callId : Nat
  endTime : ℚ
deriving DecidableEq

/-- The state of one `AudioSlicerPlayer` instance together with its audio
element's listener list. -/
structure PlayerState where
  audio : Option AudioElem
  listeners : List Watcher
  checkTimeRef : Option Watcher
  isPlaying : Bool
  counter : Nat
deriving DecidableEq

/-- Events driving the player. -/
inductive PEvent where
  | play (startTime endTime : ℚ)
  | timeupdate (t : ℚ)
  | unmount
deriving DecidableEq

/-- Observable callback invocations. -/
inductive POut where
  | onStart (callId : Nat)
  | onEnd (callId : Nat)
deriving DecidableEq

/-- The cleanup step at the top of `handlePlay`: if `checkTimeRef` records a
previously attached listener, remove it from the audio element's listener
list (`removeEventListener` drops one matching registration). -/
def detachCurrent (st : PlayerState) : List Watcher :=
  match st.checkTimeRef with
  | some w => st.listeners.erase w
  | none => st.listeners

/-- Source `handlePlay`: return at once when `audioRef.current` is null;
otherwise remove the previously attached listener (if `checkTimeRef` holds
one), seek to `max(0, startTime)`, start playback, invoke `onPlayStart`,
install a fresh `checkTime` watcher and record it in `checkTimeRef`. -/
def handlePlay (st : PlayerState) (startTime endTime : ℚ) : PlayerState × List POut :=
  match st.audio with
  | none => (st, [])
  | some au =>
    let w : Watcher := { callId := st.counter, endTime := endTime }
    ({ audio := some { au with currentTime := max 0 startTime, paused := false },
       listeners := detachCurrent st ++ [w],
       checkTimeRef := some w,
       isPlaying := true,
       counter := st.counter + 1 },
     [POut.onStart st.counter])

/-- Source `checkTime` body, run for one attached watcher: when the audio
element exists and its `currentTime` has reached the captured `endTime`,
pause, clear `isPlaying`, invoke `onPlayEnd`, remove the listener, and null
out `checkTimeRef`; otherwise do nothing. -/
def runWatcher (st : PlayerState) (w : Watcher) : PlayerState × List POut :=
  match st.audio with
  | none => (st, [])
  | some au =>
    if w.endTime ≤ au.currentTime then
      ({ st with audio := some { au with paused := true },
                 isPlaying := false,
                 listeners := st.listeners.erase w,
                 checkTimeRef := none },
       [POut.onEnd w.callId])
    else (st, [])

/-- Dispatch one `timeupdate` event to a snapshot of the listener list, in
attachment order; a listener removed earlier in the same dispatch is not
called (DOM semantics). -/
def runWatchers : PlayerState → List Watcher → PlayerState × List POut
  | st, [] => (st, [])
  | st, w :: ws =>
    let r1 := if st.listeners.contains w then runWatcher st w else (st, [])
    let r2 := runWatchers r1.1 ws
    (r2.1, r1.2 ++ r2.2)

/-- A `timeupdate` event: the audio clock reports position `t`, then the
attached listeners run. -/
def handleTimeupdate (st : PlayerState) (t : ℚ) : PlayerState × List POut :=
  match st.audio with
  | none => (st, [])
  | some au =>
    let st1 := { st with audio := some { au with currentTime := t } }
    runWatchers st1 st1.listeners

/-- The unmount cleanup effect: when both `audioRef.current` and
`checkTimeRef.current` are non-null, remove that listener (the ref cell
itself is not cleared). -/
def handleUnmount (st : PlayerState) : PlayerState × List POut :=
  match st.audio, st.checkTimeRef with
  | some _, some w => ({ st with listeners := st.listeners.erase w }, [])
  | _, _ => (st, [])

/-- One step of the player transition system. -/
def pstep (st : PlayerState) : PEvent → PlayerState × List POut
  | PEvent.play s e => handlePlay st s e
  | PEvent.timeupdate t => handleTimeupdate st t
  | PEvent.unmount => handleUnmount st

/-- Run a sequence of events, concatenating the emitted callback
invocations in order. -/
def prun (st : PlayerState) : List PEvent → PlayerState × List POut
  | [] => (st, [])
  | e :: es =>
    let r1 := pstep st e
    let r2 := prun r1.1 es
    (r2.1, r1.2 ++ r2.2)

/-- A freshly mounted player: no listener attached, `checkTimeRef` null,
not playing. -/
def initPlayer (au : Option AudioElem) : PlayerState :=
  { audio := au, listeners := [], checkTimeRef := none,
    isPlaying := false, counter := 0 }

/-- The spec's description of `normalize`, stated in its own words for the
refinement conjunct of C2: lower-case, remove every character of the set
`{. , ! ? ; :}`, trim leading/trailing whitespace (internal whitespace runs
untouched). -/
def specNormalize (s : List Char) : List Char :=
  jsTrim ((s.map lowerChar).filter (fun c => !isPunct c))

/-! ## Lemmas about characters and trimming -/

theorem charToNat_ofNat {n : Nat} (h : n < 55296) : (Char.ofNat n).toNat = n := by
  have hv : n.isValidChar := Or.inl h
  simp [Char.ofNat, hv, Char.ofNatAux, Char.toNat, UInt32.toNat, UInt32.ofNat']

theorem lowerChar_idem (c : Char) : lowerChar (lowerChar c) = lowerChar c := by
  by_cases h : 65 ≤ c.toNat ∧ c.toNat ≤ 90
  · have h32 : (Char.ofNat (c.toNat + 32)).toNat = c.toNat + 32 :=
      charToNat_ofNat (by omega)
    simp only [lowerChar, if_pos h, h32]
    rw [if_neg (by omega)]
  · simp only [lowerChar, if_neg h]

theorem dropWhile_head_false {α : Type} {p : α → Bool} :
    ∀ {l : List α} {a : α} {t : List α}, l.dropWhile p = a :: t → p a = false := by
  intro l
  induction l with
  | nil => intro a t h; simp [List.dropWhile] at h
  | cons c cs ih =>
    intro a t h
    rw [List.dropWhile_cons] at h
    by_cases hc : p c
    · rw [if_pos hc] at h
      exact ih h
    · rw [if_neg hc] at h
      obtain ⟨rfl, -⟩ := List.cons.injEq .. ▸ h
      simpa using hc

theorem dropWhile_idem {α : Type} (p : α → Bool) (l : List α) :
    (l.dropWhile p).dropWhile p = l.dropWhile p := by
  cases h : l.dropWhile p with
  | nil => rfl
  | cons a t =>
    rw [List.dropWhile_cons, if_neg (by simp [dropWhile_head_false h])]

theorem trimLeft_trimLeft (l : List Char) : trimLeft (trimLeft l) = trimLeft l :=
  dropWhile_idem isWS l

theorem trimRight_trimRight (l : List Char) : trimRight (trimRight l) = trimRight l := by
  simp only [trimRight, List.reverse_reverse]
  rw [dropWhile_idem]

theorem trimRight_isPrefixOf (m : List Char) : trimRight m <+: m := by
  rw [trimRight, ← List.reverse_suffix, List.reverse_reverse]
  exact List.dropWhile_suffix _

theorem prefix_trimLeft_fix :
    ∀ {m r : List Char}, trimLeft m = m → r <+: m → trimLeft r = r := by
  intro m r hm hr
  cases r with
  | nil => simp [trimLeft]
  | cons a t =>
    obtain ⟨u, hu⟩ := hr
    have hws : isWS a = false := by
      by_contra hws'
      have hws : isWS a = true := by simpa using hws'
      rw [← hu] at hm
      simp only [trimLeft, List.cons_append, List.dropWhile_cons, hws, if_true] at hm
      have hle := (List.dropWhile_sublist (l := t ++ u) isWS).length_le
      have hlen := congrArg List.length hm
      rw [List.length_cons] at hlen
      omega
    simp [trimLeft, List.dropWhile_cons, hws]

theorem trimLeft_trimRight_fix {m : List Char} (hm : trimLeft m = m) :
    trimLeft (trimRight m) = trimRight m :=
  prefix_trimLeft_fix hm (trimRight_isPrefixOf m)

theorem jsTrim_idem (l : List Char) : jsTrim (jsTrim l) = jsTrim l := by
  have h1 : trimLeft (trimRight (trimLeft l)) = trimRight (trimLeft l) :=
    trimLeft_trimRight_fix (trimLeft_trimLeft l)
  simp only [jsTrim, h1, trimRight_trimRight]

theorem mem_of_mem_trimRight {c : Char} {l : List Char} (h : c ∈ trimRight l) : c ∈ l := by
  rw [trimRight, List.mem_reverse] at h
  have h2 := (List.dropWhile_sublist (l := l.reverse) isWS).subset h
  rwa [List.mem_reverse] at h2

theorem mem_of_mem_jsTrim {c : Char} {l : List Char} (h : c ∈ jsTrim l) : c ∈ l := by
  rw [jsTrim] at h
  have h1 := mem_of_mem_trimRight h
  simp only [trimLeft] at h1
  exact (List.dropWhile_sublist (l := l) isWS).subset h1

theorem normalizeText_idem (s : List Char) :
    normalizeText (normalizeText s) = normalizeText s := by
  have hmem : ∀ c ∈ normalizeText s, c ∈ (s.map lowerChar).filter (fun c => !isPunct c) :=
    fun c hc => mem_of_mem_jsTrim hc
  have hlow : ∀ c ∈ normalizeText s, lowerChar c = c := by
    intro c hc
    have h2 := List.mem_of_mem_filter (hmem c hc)
    obtain ⟨d, -, rfl⟩ := List.mem_map.mp h2
    exact lowerChar_idem d
  have hpun : ∀ c ∈ normalizeText s, (!isPunct c) = true := fun c hc =>
    (List.mem_filter.mp (hmem c hc)).2
  have hmap : (normalizeText s).map lowerChar = normalizeText s := by
    simpa using List.map_congr_left hlow
  have hfix : jsTrim (normalizeText s) = normalizeText s := by
    simp only [normalizeText]
    exact jsTrim_idem _
  calc normalizeText (normalizeText s)
      = jsTrim (((normalizeText s).map lowerChar).filter (fun c => !isPunct c)) := rfl
    _ = jsTrim ((normalizeText s).filter (fun c => !isPunct c)) := by rw [hmap]
    _ = jsTrim (normalizeText s) := by rw [List.filter_eq_self.mpr hpun]
    _ = normalizeText s := hfix

/-! ## Lemmas about `splitWs` and `generateDiff` -/

theorem splitWsAux_ne_nil :
    ∀ (s acc : List Char) (b : Bool), splitWsAux s acc b ≠ [] := by
  intro s
  induction s with
  | nil => intro acc b; simp [splitWsAux]
  | cons c cs ih =>
    intro acc b
    simp only [splitWsAux]
    by_cases h : isWS c
    · rw [if_pos h]
      cases b with
      | true => simpa using ih [] true
      | false => simp
    · rw [if_neg h]
      exact ih (c :: acc) false

theorem splitWs_ne_nil (s : List Char) : splitWs s ≠ [] :=
  splitWsAux_ne_nil s [] false

theorem diffAnnotate_length (uw : List (List Char)) :
    ∀ (ws : List (List Char)) (n : Nat), (diffAnnotate uw n ws).length = ws.length := by
  intro ws
  induction ws with
  | nil => intro n; rfl
  | cons w rest ih => intro n; simp [diffAnnotate, ih]

theorem diffAnnotate_get? (uw : List (List Char)) :
    ∀ (ws : List (List Char)) (n i : Nat),
      (diffAnnotate uw n ws).get? i =
        (ws.get? i).map
          (fun w => { text := w, isCorrect := uw.get? (n + i) == some (cleanWord w) }) := by
  intro ws
  induction ws with
  | nil => intro n i; simp [diffAnnotate]
  | cons w rest ih =>
    intro n i
    cases i with
    | zero => simp [diffAnnotate]
    | succ j =>
      have hn : n + (j + 1) = (n + 1) + j := by omega
      simp only [diffAnnotate, List.get?_cons_succ, ih (n + 1) j, hn]

/-! ## Lemmas about the playback controller -/

/-- Invariant of reachable player states: the listener list is empty or
exactly the watcher recorded in `checkTimeRef`, and every attached watcher
was installed by the most recent `play()` call. -/
def GoodP (st : PlayerState) : Prop :=
  (st.listeners = [] ∨ ∃ w, st.checkTimeRef = some w ∧ st.listeners = [w]) ∧
  ∀ w ∈ st.listeners, w.callId + 1 = st.counter

/-- The `play()` call with identifier `i` is over: the counter moved past it
and no attached watcher carries it, so its `onEnd` can never fire again. -/
def DoneP (i : Nat) (st : PlayerState) : Prop :=
  i + 1 ≤ st.counter ∧ ∀ w ∈ st.listeners, w.callId ≠ i

theorem goodP_init (au : Option AudioElem) : GoodP (initPlayer au) := by
  refine ⟨Or.inl rfl, ?_⟩
  intro w hw
  simp [initPlayer] at hw

theorem detachCurrent_nil {st : PlayerState}
    (h1 : st.listeners = [] ∨ ∃ w, st.checkTimeRef = some w ∧ st.listeners = [w]) :
    detachCurrent st = [] := by
  rcases h1 with h1 | ⟨w, hw, hl⟩
  · rw [detachCurrent]
    cases st.checkTimeRef <;> simp [h1]
  · rw [detachCurrent, hw, hl]
    simp

theorem handlePlay_noAudio {st : PlayerState} (h : st.audio = none) (s e : ℚ) :
    handlePlay st s e = (st, []) := by
  simp [handlePlay, h]

theorem handlePlay_audio {st : PlayerState} {au : AudioElem} (h : st.audio = some au)
    (s e : ℚ) :
    handlePlay st s e =
      ({ audio := some { currentTime := max 0 s, paused := false },
         listeners := detachCurrent st ++ [⟨st.counter, e⟩],
         checkTimeRef := some ⟨st.counter, e⟩,
         isPlaying := true,
         counter := st.counter + 1 },
       [POut.onStart st.counter]) := by
  simp [handlePlay, h]

theorem runWatcher_noAudio {st : PlayerState} {w : Watcher} (h : st.audio = none) :
    runWatcher st w = (st, []) := by
  simp [runWatcher, h]

theorem runWatcher_fire {st : PlayerState} {w : Watcher} {au : AudioElem}
    (h : st.audio = some au) (hge : w.endTime ≤ au.currentTime) :
    runWatcher st w =
      ({ st with audio := some { au with paused := true },
                 isPlaying := false,
                 listeners := st.listeners.erase w,
                 checkTimeRef := none },
       [POut.onEnd w.callId]) := by
  simp [runWatcher, h, hge]

theorem runWatcher_noFire {st : PlayerState} {w : Watcher} {au : AudioElem}
    (h : st.audio = some au) (hlt : ¬ w.endTime ≤ au.currentTime) :
    runWatcher st w = (st, []) := by
  simp [runWatcher, h, hlt]

theorem handleTimeupdate_noAudio {st : PlayerState} (h : st.audio = none) (t : ℚ) :
    handleTimeupdate st t = (st, []) := by
  simp [handleTimeupdate, h]

theorem handleTimeupdate_audio {st : PlayerState} {au : AudioElem}
    (h : st.audio = some au) (t : ℚ) :
    handleTimeupdate st t =
      runWatchers { st with audio := some { au with currentTime := t } }
        st.listeners := by
  simp [handleTimeupdate, h]

/-- One `timeupdate` on a state whose only listener is `w`: the single
watcher runs once, on the clock position `t`. -/
theorem handleTimeupdate_single {st : PlayerState} {au : AudioElem} {w : Watcher}
    (h : st.audio = some au) (hl : st.listeners = [w]) (t : ℚ) :
    handleTimeupdate st t =
      runWatcher { st with audio := some { au with currentTime := t } } w := by
  rw [handleTimeupdate_audio h]
  have hmem : ({ st with audio := some { au with currentTime := t } } :
      PlayerState).listeners.contains w = true := by
    simp [hl]
  rw [hl]
  simp only [runWatchers, hmem, if_pos]
  cases hr : runWatcher { st with audio := some { au with currentTime := t } } w with
  | mk st1 o1 => simp [runWatchers]

theorem runWatcher_counter (st : PlayerState) (w : Watcher) :
    (runWatcher st w).1.counter = st.counter := by
  rw [runWatcher]
  cases st.audio with
  | none => rfl
  | some au => by_cases hge : w.endTime ≤ au.currentTime <;> simp [hge]

theorem runWatcher_out {st : PlayerState} {w : Watcher} {o : POut}
    (ho : o ∈ (runWatcher st w).2) : o = POut.onEnd w.callId := by
  rw [runWatcher] at ho
  cases ha : st.audio with
  | none => rw [ha] at ho; simp at ho
  | some au =>
    rw [ha] at ho
    by_cases hge : w.endTime ≤ au.currentTime
    · simp only [hge, if_true] at ho
      simpa using ho
    · simp [hge] at ho

theorem runWatchers_counter :
    ∀ (ws : List Watcher) (st : PlayerState),
      (runWatchers st ws).1.counter = st.counter := by
  intro ws
  induction ws with
  | nil => intro st; rfl
  | cons w ws ih =>
    intro st
    simp only [runWatchers]
    rw [ih]
    by_cases hc : st.listeners.contains w = true
    · rw [if_pos hc, runWatcher_counter]
    · rw [if_neg hc]

theorem runWatchers_out_onEnd :
    ∀ (ws : List Watcher) (st : PlayerState) (o : POut),
      o ∈ (runWatchers st ws).2 → ∃ k, o = POut.onEnd k := by
  intro ws
  induction ws with
  | nil => intro st o ho; simp [runWatchers] at ho
  | cons w ws ih =>
    intro st o ho
    simp only [runWatchers, List.mem_append] at ho
    rcases ho with ho | ho
    · by_cases hc : st.listeners.contains w = true
      · rw [if_pos hc] at ho
        exact ⟨w.callId, runWatcher_out ho⟩
      · rw [if_neg hc] at ho
        simp at ho
    · exact ih _ o ho

theorem handleUnmount_out (st : PlayerState) : (handleUnmount st).2 = [] := by
  rw [handleUnmount]
  cases st.audio <;> cases st.checkTimeRef <;> rfl

theorem handleUnmount_state (st : PlayerState) :
    (handleUnmount st).1.counter = st.counter ∧
    (handleUnmount st).1.checkTimeRef = st.checkTimeRef ∧
    ∀ w ∈ (handleUnmount st).1.listeners, w ∈ st.listeners := by
  rw [handleUnmount]
  cases st.audio <;> cases hc : st.checkTimeRef <;> simp_all
  exact fun w hw => List.Sublist.subset (List.erase_sublist _ _) hw

theorem pstep_counter_le (st : PlayerState) (e : PEvent) :
    st.counter ≤ (pstep st e).1.counter := by
  cases e with
  | play s en =>
    simp only [pstep]
    cases ha : st.audio with
    | none => rw [handlePlay_noAudio ha]
    | some au =>
      rw [handlePlay_audio ha]
      exact Nat.le_succ _
  | timeupdate t =>
    simp only [pstep]
    cases ha : st.audio with
    | none => rw [handleTimeupdate_noAudio ha]
    | some au => rw [handleTimeupdate_audio ha, runWatchers_counter]
  | unmount =>
    simp only [pstep]
    rw [(handleUnmount_state st).1]

theorem pstep_onStart {st : PlayerState} {j : Nat} {e : PEvent}
    (h : POut.onStart j ∈ (pstep st e).2) : (pstep st e).1.counter = j + 1 := by
  cases e with
  | play s en =>
    simp only [pstep] at h ⊢
    cases ha : st.audio with
    | none => rw [handlePlay_noAudio ha] at h; simp at h
    | some au =>
      rw [handlePlay_audio ha] at h ⊢
      simp at h ⊢
      omega
  | timeupdate t =>
    simp only [pstep] at h
    cases ha : st.audio with
    | none => rw [handleTimeupdate_noAudio ha] at h; simp at h
    | some au =>
      rw [handleTimeupdate_audio ha] at h
      obtain ⟨k, hk⟩ := runWatchers_out_onEnd _ _ _ h
      exact absurd hk (by simp)
  | unmount =>
    simp only [pstep] at h
    rw [handleUnmount_out] at h
    simp at h

theorem detachCurrent_subset (st : PlayerState) :
    ∀ w ∈ detachCurrent st, w ∈ st.listeners := by
  rw [detachCurrent]
  cases st.checkTimeRef with
  | none => exact fun w hw => hw
  | some w0 => exact fun w hw => List.Sublist.subset (List.erase_sublist _ _) hw

theorem handleUnmount_noAudio {st : PlayerState} (h : st.audio = none) :
    handleUnmount st = (st, []) := by
  rw [handleUnmount, h]

theorem handleUnmount_noRef {st : PlayerState} (h : st.checkTimeRef = none) :
    handleUnmount st = (st, []) := by
  rw [handleUnmount, h]
  cases st.audio <;> rfl

theorem handleUnmount_ref {st : PlayerState} {au : AudioElem} {w : Watcher}
    (ha : st.audio = some au) (hr : st.checkTimeRef = some w) :
    handleUnmount st = ({ st with listeners := st.listeners.erase w }, []) := by
  rw [handleUnmount, ha, hr]

theorem pstep_good {st : PlayerState} (hg : GoodP st) (e : PEvent) :
    GoodP (pstep st e).1 := by
  obtain ⟨h1, h2⟩ := hg
  cases e with
  | play s en =>
    simp only [pstep]
    cases ha : st.audio with
    | none =>
      rw [handlePlay_noAudio ha]
      exact ⟨h1, h2⟩
    | some au =>
      rw [handlePlay_audio ha]
      have hd := detachCurrent_nil h1
      refine ⟨Or.inr ⟨⟨st.counter, en⟩, rfl, ?_⟩, ?_⟩
      · simp [hd]
      · intro w hw
        simp [hd] at hw
        rw [hw]
  | timeupdate t =>
    simp only [pstep]
    cases ha : st.audio with
    | none =>
      rw [handleTimeupdate_noAudio ha]
      exact ⟨h1, h2⟩
    | some au =>
      rcases h1 with hl | ⟨w, hr, hl⟩
      · rw [handleTimeupdate_audio ha]
        have hl' : ({ st with audio := some { au with currentTime := t } } :
            PlayerState).listeners = [] := hl
        rw [hl']
        simp only [runWatchers]
        refine ⟨Or.inl ?_, ?_⟩ <;> simp [hl]
      · rw [handleTimeupdate_single ha hl]
        by_cases hge : w.endTime ≤ t
        · rw [runWatcher_fire rfl hge]
          refine ⟨Or.inl ?_, ?_⟩
          · simp [hl]
          · intro w' hw'
            simp [hl] at hw'
        · rw [runWatcher_noFire rfl hge]
          exact ⟨Or.inr ⟨w, hr, hl⟩, h2⟩
  | unmount =>
    simp only [pstep]
    cases ha : st.audio with
    | none =>
      rw [handleUnmount_noAudio ha]
      exact ⟨h1, h2⟩
    | some au =>
      cases hr : st.checkTimeRef with
      | none =>
        rw [handleUnmount_noRef hr]
        exact ⟨h1, h2⟩
      | some w =>
        rw [handleUnmount_ref ha hr]
        rcases h1 with hl | ⟨w', hr', hl⟩
        · refine ⟨Or.inl ?_, ?_⟩ <;> simp [hl]
        · obtain rfl : w = w' := by rw [hr] at hr'; exact Option.some.inj hr'
          refine ⟨Or.inl ?_, ?_⟩ <;> simp [hl]

theorem pstep_done {st : PlayerState} (hg : GoodP st) {i : Nat} (hd : DoneP i st)
    (e : PEvent) :
    (pstep st e).2.count (POut.onEnd i) = 0 ∧ DoneP i (pstep st e).1 := by
  obtain ⟨h1, h2⟩ := hg
  obtain ⟨hd1, hd2⟩ := hd
  cases e with
  | play s en =>
    simp only [pstep]
    cases ha : st.audio with
    | none =>
      rw [handlePlay_noAudio ha]
      exact ⟨rfl, hd1, hd2⟩
    | some au =>
      rw [handlePlay_audio ha]
      refine ⟨by simp, ?_, ?_⟩
      · show i + 1 ≤ st.counter + 1
        omega
      · intro w hw
        have hw' : w ∈ detachCurrent st ++ [⟨st.counter, en⟩] := hw
        rcases List.mem_append.mp hw' with hm | hm
        · exact hd2 w (detachCurrent_subset st w hm)
        · have hw2 : w = ⟨st.counter, en⟩ := by simpa using hm
          rw [hw2]
          show st.counter ≠ i
          omega
  | timeupdate t =>
    simp only [pstep]
    cases ha : st.audio with
    | none =>
      rw [handleTimeupdate_noAudio ha]
      exact ⟨rfl, hd1, hd2⟩
    | some au =>
      rcases h1 with hl | ⟨w, hr, hl⟩
      · rw [handleTimeupdate_audio ha]
        have hl' : ({ st with audio := some { au with currentTime := t } } :
            PlayerState).listeners = [] := hl
        rw [hl']
        simp only [runWatchers]
        refine ⟨rfl, hd1, ?_⟩
        simp [hl]
      · have hwi : w.callId ≠ i := hd2 w (by rw [hl]; exact List.mem_singleton.mpr rfl)
        rw [handleTimeupdate_single ha hl]
        by_cases hge : w.endTime ≤ t
        · rw [runWatcher_fire rfl hge]
          refine ⟨?_, hd1, ?_⟩
          · rw [List.count_eq_zero]
            simp [Ne.symm hwi]
          · intro w' hw'
            simp [hl] at hw'
        · rw [runWatcher_noFire rfl hge]
          exact ⟨rfl, hd1, hd2⟩
  | unmount =>
    simp only [pstep]
    cases ha : st.audio with
    | none =>
      rw [handleUnmount_noAudio ha]
      exact ⟨rfl, hd1, hd2⟩
    | some au =>
      cases hr : st.checkTimeRef with
      | none =>
        rw [handleUnmount_noRef hr]
        exact ⟨rfl, hd1, hd2⟩
      | some w =>
        rw [handleUnmount_ref ha hr]
        exact ⟨rfl, hd1, fun w' hw' =>
          hd2 w' (List.Sublist.subset (List.erase_sublist _ _) hw')⟩

theorem pstep_end_count {st : PlayerState} (hg : GoodP st) (i : Nat) (e : PEvent) :
    (pstep st e).2.count (POut.onEnd i) = 0 ∨
      ((pstep st e).2.count (POut.onEnd i) = 1 ∧ st.counter = i + 1 ∧
        DoneP i (pstep st e).1) := by
  obtain ⟨h1, h2⟩ := hg
  cases e with
  | play s en =>
    simp only [pstep]
    cases ha : st.audio with
    | none =>
      rw [handlePlay_noAudio ha]
      exact Or.inl rfl
    | some au =>
      rw [handlePlay_audio ha]
      exact Or.inl (by simp)
  | timeupdate t =>
    simp only [pstep]
    cases ha : st.audio with
    | none =>
      rw [handleTimeupdate_noAudio ha]
      exact Or.inl rfl
    | some au =>
      rcases h1 with hl | ⟨w, hr, hl⟩
      · rw [handleTimeupdate_audio ha]
        have hl' : ({ st with audio := some { au with currentTime := t } } :
            PlayerState).listeners = [] := hl
        rw [hl']
        simp only [runWatchers]
        exact Or.inl rfl
      · have hcnt : w.callId + 1 = st.counter :=
          h2 w (by rw [hl]; exact List.mem_singleton.mpr rfl)
        rw [handleTimeupdate_single ha hl]
        by_cases hge : w.endTime ≤ t
        · rw [runWatcher_fire rfl hge]
          by_cases hwi : w.callId = i
          · refine Or.inr ⟨?_, by omega, ?_, ?_⟩
            · rw [hwi]
              simp
            · show i + 1 ≤ st.counter
              omega
            · intro w' hw'
              simp [hl] at hw'
          · refine Or.inl ?_
            rw [List.count_eq_zero]
            simp only [List.mem_singleton, POut.onEnd.injEq]
            exact fun h => hwi h.symm
        · rw [runWatcher_noFire rfl hge]
          exact Or.inl rfl
  | unmount =>
    simp only [pstep]
    rw [show (handleUnmount st).2 = [] from handleUnmount_out st]
    exact Or.inl rfl

theorem prun_eq_cons (st : PlayerState) (e : PEvent) (es : List PEvent) :
    prun st (e :: es) =
      ((prun (pstep st e).1 es).1, (pstep st e).2 ++ (prun (pstep st e).1 es).2) := rfl

theorem prun_good :
    ∀ (es : List PEvent) (st : PlayerState), GoodP st → GoodP (prun st es).1 := by
  intro es
  induction es with
  | nil => intro st hg; exact hg
  | cons e es ih =>
    intro st hg
    rw [prun_eq_cons]
    exact ih _ (pstep_good hg e)

theorem prun_counter_le :
    ∀ (es : List PEvent) (st : PlayerState), st.counter ≤ (prun st es).1.counter := by
  intro es
  induction es with
  | nil => intro st; exact Nat.le_refl _
  | cons e es ih =>
    intro st
    rw [prun_eq_cons]
    exact Nat.le_trans (pstep_counter_le st e) (ih _)

/-- Per-call accounting over a whole run: from a well-formed state the
`onEnd` of any single call fires at most once, and never again once the call
is over. -/
theorem prun_count :
    ∀ (es : List PEvent) (st : PlayerState) (i : Nat), GoodP st →
      ((prun st es).2.count (POut.onEnd i) ≤ 1 ∧
        (DoneP i st → (prun st es).2.count (POut.onEnd i) = 0)) := by
  intro es
  induction es with
  | nil =>
    intro st i hg
    exact ⟨by simp [prun], fun _ => by simp [prun]⟩
  | cons e es ih =>
    intro st i hg
    rw [prun_eq_cons]
    simp only [List.count_append]
    have hg' := pstep_good hg e
    obtain ⟨ihle, ihdone⟩ := ih (pstep st e).1 i hg'
    constructor
    · rcases pstep_end_count hg i e with h0 | ⟨h1c, -, hdn⟩
      · rw [h0]
        omega
      · rw [h1c, ihdone hdn]
    · intro hdst
      obtain ⟨hz, hd'⟩ := pstep_done hg hdst e
      rw [hz, ihdone hd']

/-- If the single attached watcher's boundary is reached by some tick of an
uninterrupted run of `timeupdate` events, its `onEnd` is emitted. -/
theorem reach_end :
    ∀ (ts : List ℚ) (st : PlayerState) (i : Nat) (e : ℚ) (au : AudioElem),
      st.audio = some au → st.listeners = [⟨i, e⟩] →
      (∃ t ∈ ts, e ≤ t) →
      POut.onEnd i ∈ (prun st (ts.map PEvent.timeupdate)).2 := by
  intro ts
  induction ts with
  | nil =>
    intro st i e au ha hl ht
    simp at ht
  | cons t ts ih =>
    intro st i e au ha hl ht
    rw [List.map_cons, prun_eq_cons]
    have hstep : pstep st (PEvent.timeupdate t) =
        runWatcher { st with audio := some { au with currentTime := t } } ⟨i, e⟩ := by
      simp only [pstep]
      exact handleTimeupdate_single ha hl t
    by_cases hge : (⟨i, e⟩ : Watcher).endTime ≤ t
    · rw [hstep, runWatcher_fire rfl hge]
      simp
    · rw [hstep, runWatcher_noFire rfl hge]
      simp only [List.nil_append]
      refine ih { st with audio := some { au with currentTime := t } } i e
        { au with currentTime := t } rfl hl ?_
      obtain ⟨t', htm, htle⟩ := ht
      rcases List.mem_cons.mp htm with rfl | hmem
      · exact absurd htle hge
      · exact ⟨t', hmem, htle⟩

/-- A superseding `play()` or the unmount cleanup on a state whose single
attached watcher is call `i`: nothing is emitted in that step and call `i`
is over for good. -/
theorem cancel_step {st : PlayerState} {i : Nat} {e : ℚ} {au : AudioElem}
    (hg : GoodP st) (ha : st.audio = some au) (hl : st.listeners = [⟨i, e⟩])
    (hr : st.checkTimeRef = some ⟨i, e⟩) (hc : st.counter = i + 1)
    {ev : PEvent} (hev : (∃ s' e', ev = PEvent.play s' e') ∨ ev = PEvent.unmount) :
    (pstep st ev).2.count (POut.onEnd i) = 0 ∧ DoneP i (pstep st ev).1 := by
  rcases hev with ⟨s', e', rfl⟩ | rfl
  · simp only [pstep]
    rw [handlePlay_audio ha]
    refine ⟨by simp, ?_, ?_⟩
    · show i + 1 ≤ st.counter + 1
      omega
    · intro w hw
      have hw' : w ∈ detachCurrent st ++ [⟨st.counter, e'⟩] := hw
      rcases List.mem_append.mp hw' with hm | hm
      · rw [detachCurrent_nil hg.1] at hm
        simp at hm
      · have hw2 : w = ⟨st.counter, e'⟩ := by simpa using hm
        rw [hw2]
        show st.counter ≠ i
        omega
  · simp only [pstep]
    rw [handleUnmount_ref ha hr]
    refine ⟨rfl, ?_, ?_⟩
    · show i + 1 ≤ st.counter
      omega
    · intro w hw
      have hw' : w ∈ st.listeners.erase ⟨i, e⟩ := hw
      rw [hl] at hw'
      simp at hw'

/-- A run of below-boundary ticks followed by a superseding `play()` or
teardown (and then anything at all) never emits the pending call's `onEnd`. -/
theorem no_fire_cancel :
    ∀ (ts : List ℚ) (st : PlayerState) (i : Nat) (e : ℚ) (au : AudioElem)
      (ev : PEvent) (rest : List PEvent),
      GoodP st →
      st.audio = some au →
      st.listeners = [⟨i, e⟩] →
      st.checkTimeRef = some ⟨i, e⟩ →
      st.counter = i + 1 →
      (∀ t ∈ ts, t < e) →
      ((∃ s' e', ev = PEvent.play s' e') ∨ ev = PEvent.unmount) →
      ((prun st (ts.map PEvent.timeupdate ++ ev :: rest)).2.count (POut.onEnd i)) = 0 := by
  intro ts
  induction ts with
  | nil =>
    intro st i e au ev rest hg ha hl hr hc hts hev
    rw [List.map_nil, List.nil_append, prun_eq_cons]
    simp only [List.count_append]
    obtain ⟨hz, hd⟩ := cancel_step hg ha hl hr hc hev
    have hg' := pstep_good hg ev
    have hrest := (prun_count rest _ i hg').2 hd
    rw [hz, hrest]
  | cons t ts ih =>
    intro st i e au ev rest hg ha hl hr hc hts hev
    rw [List.map_cons, List.cons_append, prun_eq_cons]
    have hstep : pstep st (PEvent.timeupdate t) =
        runWatcher { st with audio := some { au with currentTime := t } } ⟨i, e⟩ := by
      simp only [pstep]
      exact handleTimeupdate_single ha hl t
    have hge : ¬ (⟨i, e⟩ : Watcher).endTime ≤ t := by
      have := hts t (List.mem_cons_self t ts)
      show ¬ e ≤ t
      exact not_le.mpr this
    rw [hstep, runWatcher_noFire rfl hge]
    simp only [List.nil_append]
    exact ih _ i e { au with currentTime := t } ev rest ⟨hg.1, hg.2⟩ rfl hl hr hc
      (fun t' ht' => hts t' (List.mem_cons_of_mem t ht')) hev

/-- The state right after a successful `play()` from a well-formed state:
playhead seeked, exactly the fresh watcher attached and recorded, counter
advanced. -/
theorem play_post {st : PlayerState} {au : AudioElem} (hg : GoodP st)
    (ha : st.audio = some au) (s e : ℚ) :
    (pstep st (PEvent.play s e)).1.audio = some ⟨max 0 s, false⟩ ∧
    (pstep st (PEvent.play s e)).1.listeners = [⟨st.counter, e⟩] ∧
    (pstep st (PEvent.play s e)).1.checkTimeRef = some ⟨st.counter, e⟩ ∧
    (pstep st (PEvent.play s e)).1.counter = st.counter + 1 := by
  simp only [pstep]
  rw [handlePlay_audio ha]
  refine ⟨rfl, ?_, rfl, rfl⟩
  rw [detachCurrent_nil hg.1]
  rfl

/-- C1 (the code diverges from the claim): when the transcription fails or
returns an empty segment list, the host is supposed to reset to the
pre-upload state (`IDLE`, `isProcessing = false`) and set a user-visible
error.  In the source, both failures happen inside the `async` `reader.onload`
callback, whose exceptions are unhandled promise rejections: the `try/catch`
of `startProcessing` has already returned, so the session is left stuck at
`status = PROCESSING`, `isProcessing = true`, `error = null`.  This theorem
evaluates the model at both failing inputs and records the stuck state. -/
theorem claim_c1 :
    startProcessing true ⟨AppStatus.IDLE, false, none, [], 0⟩ (Except.ok []) =
      ⟨AppStatus.PROCESSING, true, none, [], 0⟩ ∧
    startProcessing true ⟨AppStatus.IDLE, false, none, [], 0⟩
        (Except.error ("Failed to transcribe audio. Please try a shorter clip or different file.".data)) =
      ⟨AppStatus.PROCESSING, true, none, [], 0⟩ := by
  constructor <;> rfl

/-- C2: `isMatch` returns true exactly when the two normalized strings are
equal; `normalizeText` refines the spec's description of `normalize`
(lower-case, strip `{. , ! ? ; :}`, trim the ends); internal whitespace runs
are preserved, so inputs differing only in internal whitespace mismatch. -/
theorem claim_c2 :
    (∀ reference userInput : List Char,
       isMatch reference userInput = true ↔
         normalizeText reference = normalizeText userInput) ∧
    (∀ s : List Char, normalizeText s = specNormalize s) ∧
    isMatch ("a  b".data) ("a b".data) = false := by
  refine ⟨fun reference userInput => ?_, fun s => rfl, by decide⟩
  rw [isMatch, beq_iff_eq]
  exact eq_comm

/-- C3: `generateDiff` annotates exactly the reference words, positionally:
position `i` carries the raw reference word and is correct iff the cleaned
user token list has an entry at `i` equal to the cleaned reference word
(absent entries never match); positions past the reference word list carry
no annotation; and the concrete example from the spec evaluates as stated. -/
theorem claim_c3 :
    (∀ (original user : List Char) (i : Nat) (w : List Char),
       (splitWs original).get? i = some w →
       (generateDiff original user).get? i =
         some { text := w,
                isCorrect :=
                  ((splitWs user).map cleanWord).get? i == some (cleanWord w) }) ∧
    (∀ (original user : List Char) (i : Nat),
       (splitWs original).get? i = none → (generateDiff original user).get? i = none) ∧
    generateDiff ("Ik zie een hond.".data) ("ik zie een kat".data) =
      [⟨"Ik".data, true⟩, ⟨"zie".data, true⟩, ⟨"een".data, true⟩, ⟨"hond.".data, false⟩] := by
  refine ⟨fun original user i w h => ?_, fun original user i h => ?_, by decide⟩
  · rw [generateDiff, diffAnnotate_get?, h]
    simp
  · rw [generateDiff, diffAnnotate_get?, h]
    rfl

/-- Witness for C3 at a concrete input. -/
theorem claim_c3_witness :
    (splitWs ("Ik zie".data)).get? 1 = some ("zie".data) ∧
    (generateDiff ("Ik zie".data) ("ik zo".data)).get? 1 =
      some { text := "zie".data,
             isCorrect :=
               ((splitWs ("ik zo".data)).map cleanWord).get? 1 ==
                 some (cleanWord ("zie".data)) } :=
  ⟨by decide, claim_c3.1 ("Ik zie".data) ("ik zo".data) 1 ("zie".data) (by decide)⟩

/-- C4: the annotation list returned by `generateDiff` always has exactly as
many entries as the whitespace-split of the reference, whatever the user
typed. -/
theorem claim_c4 :
    ∀ original user : List Char,
      (generateDiff original user).length = (splitWs original).length := by
  intro original user
  exact diffAnnotate_length _ _ _

/-- C7: `normalizeText` is idempotent. -/
theorem claim_c7 :
    ∀ s : List Char, normalizeText (normalizeText s) = normalizeText s :=
  normalizeText_idem

/-- C8: submitting an empty or whitespace-only input is a no-op: the guard
`if (!userInput.trim()) return;` fires before any grading, leaving the state
(feedback included) unchanged. -/
theorem claim_c8 :
    ∀ st : AppState, jsTrim st.userInput = [] → handleSubmit st = some st := by
  intro st h
  simp [handleSubmit, h]

/-- Witness for C8 on a whitespace-only input. -/
theorem claim_c8_witness :
    jsTrim (" \t ".data) = [] ∧
    handleSubmit { segments := [], currentIndex := 0,
                   userInput := " \t ".data, feedback := none } =
      some { segments := [], currentIndex := 0,
             userInput := " \t ".data, feedback := none } :=
  ⟨by decide, claim_c8 _ (by decide)⟩

/-- C9: `generateDiff` never returns an empty list (splitting always yields
at least one token), and on the empty reference it returns exactly one
annotation with empty text, correct iff the first user token cleans to the
empty string. -/
theorem claim_c9 :
    (∀ original user : List Char, generateDiff original user ≠ []) ∧
    (∀ (user tok : List Char) (rest : List (List Char)),
       splitWs user = tok :: rest →
       generateDiff [] user =
         [{ text := [], isCorrect := cleanWord tok == ([] : List Char) }]) ∧
    (∀ user : List Char, splitWs user ≠ []) := by
  refine ⟨fun original user => ?_, fun user tok rest h => ?_, splitWs_ne_nil⟩
  · rw [generateDiff]
    cases hs : splitWs original with
    | nil => exact absurd hs (splitWs_ne_nil original)
    | cons x xs => simp [diffAnnotate]
  · have hsplit : splitWs ([] : List Char) = [[]] := rfl
    rw [generateDiff, hsplit, h]
    simp only [diffAnnotate, List.map_cons, List.get?_cons_zero]
    have hclean : cleanWord ([] : List Char) = [] := rfl
    rw [hclean]
    cases hb : cleanWord tok == ([] : List Char) <;> simp_all

/-- Witness for C9's empty-reference characterization. -/
theorem claim_c9_witness :
    splitWs ("x".data) = ["x".data] ∧
    generateDiff [] ("x".data) =
      [{ text := [], isCorrect := cleanWord ("x".data) == ([] : List Char) }] :=
  ⟨by decide, claim_c9.2.1 ("x".data) ("x".data) [] (by decide)⟩

/-- C10: a `play()` call with no audio handle is a no-op: the state is
untouched (no seek, no watcher attached, no counter movement) and no
callback is ever invoked for that call. -/
theorem claim_c10 :
    ∀ (st : PlayerState) (s e : ℚ),
      st.audio = none → pstep st (PEvent.play s e) = (st, []) := by
  intro st s e h
  simp [pstep, handlePlay, h]

/-- Witness for C10 on a concrete handle-less state. -/
theorem claim_c10_witness :
    (initPlayer none).audio = none ∧
    pstep (initPlayer none) (PEvent.play 0 1) = (initPlayer none, []) :=
  ⟨rfl, claim_c10 (initPlayer none) 0 1 rfl⟩

/-- C5: for every `play()` call (identified by the counter value at the call)
with `endTime > startTime`, `onEnd` fires at most once over any whole run;
it fires exactly once when an uninterrupted sequence of `timeupdate` ticks
reaches `endTime`; and it fires zero times when a superseding `play()` or
the unmount teardown arrives before any tick reaches `endTime`. -/
theorem claim_c5 :
    (∀ (au : Option AudioElem) (es : List PEvent) (i : Nat),
       (prun (initPlayer au) es).2.count (POut.onEnd i) ≤ 1) ∧
    (∀ (au : Option AudioElem) (es : List PEvent) (s e : ℚ) (ts : List ℚ),
       s < e →
       (prun (initPlayer au) es).1.audio.isSome = true →
       (∃ t ∈ ts, e ≤ t) →
       (prun (pstep (prun (initPlayer au) es).1 (PEvent.play s e)).1
           (ts.map PEvent.timeupdate)).2.count
         (POut.onEnd (prun (initPlayer au) es).1.counter) = 1) ∧
    (∀ (au : Option AudioElem) (es : List PEvent) (s e : ℚ) (ts : List ℚ)
       (ev : PEvent) (rest : List PEvent),
       s < e →
       (prun (initPlayer au) es).1.audio.isSome = true →
       (∀ t ∈ ts, t < e) →
       ((∃ s' e', ev = PEvent.play s' e') ∨ ev = PEvent.unmount) →
       (prun (pstep (prun (initPlayer au) es).1 (PEvent.play s e)).1
           (ts.map PEvent.timeupdate ++ ev :: rest)).2.count
         (POut.onEnd (prun (initPlayer au) es).1.counter) = 0) := by
  refine ⟨?_, ?_, ?_⟩
  · intro au es i
    exact (prun_count es _ i (goodP_init au)).1
  · intro au es s e ts _hse hsome hex
    have hg0 : GoodP (prun (initPlayer au) es).1 := prun_good es _ (goodP_init au)
    obtain ⟨au0, ha0⟩ := Option.isSome_iff_exists.mp hsome
    obtain ⟨hA, hL, hR, hC⟩ := play_post hg0 ha0 s e
    have hg1 : GoodP (pstep (prun (initPlayer au) es).1 (PEvent.play s e)).1 :=
      pstep_good hg0 _
    have hmem := reach_end ts _ (prun (initPlayer au) es).1.counter e _ hA hL hex
    have hle := (prun_count (ts.map PEvent.timeupdate) _
      (prun (initPlayer au) es).1.counter hg1).1
    have hpos := List.count_pos_iff.mpr hmem
    omega
  · intro au es s e ts ev rest _hse hsome hts hev
    have hg0 : GoodP (prun (initPlayer au) es).1 := prun_good es _ (goodP_init au)
    obtain ⟨au0, ha0⟩ := Option.isSome_iff_exists.mp hsome
    obtain ⟨hA, hL, hR, hC⟩ := play_post hg0 ha0 s e
    have hg1 : GoodP (pstep (prun (initPlayer au) es).1 (PEvent.play s e)).1 :=
      pstep_good hg0 _
    exact no_fire_cancel ts _ (prun (initPlayer au) es).1.counter e _ ev rest
      hg1 hA hL hR hC hts hev

/-- Witness for C5: one concrete `play()` on a mounted handle whose boundary
is reached by the next tick fires `onEnd` exactly once. -/
theorem claim_c5_witness :
    ((0 : ℚ) < 1 ∧
     (prun (initPlayer (some ⟨0, true⟩)) []).1.audio.isSome = true ∧
     (∃ t ∈ [(2 : ℚ)], 1 ≤ t)) ∧
    (prun (pstep (prun (initPlayer (some ⟨0, true⟩)) []).1 (PEvent.play 0 1)).1
        ([(2 : ℚ)].map PEvent.timeupdate)).2.count
      (POut.onEnd (prun (initPlayer (some ⟨0, true⟩)) []).1.counter) = 1 :=
  ⟨⟨by decide, rfl, by decide⟩,
    claim_c5.2.1 (some ⟨0, true⟩) [] 0 1 [2] (by decide) rfl (by decide)⟩

/-- C6: at most one boundary-watcher is attached to the audio handle in any
reachable state, and no call's `onEnd` is ever emitted after a later call's
`onStart` (listener identifiers only grow along a run). -/
theorem claim_c6 :
    (∀ (au : Option AudioElem) (es : List PEvent),
       (prun (initPlayer au) es).1.listeners.length ≤ 1) ∧
    (∀ (au : Option AudioElem) (es1 : List PEvent) (e1 : PEvent)
       (es2 : List PEvent) (e2 : PEvent) (i j : Nat),
       POut.onStart j ∈ (pstep (prun (initPlayer au) es1).1 e1).2 →
       POut.onEnd i ∈
         (pstep (prun (pstep (prun (initPlayer au) es1).1 e1).1 es2).1 e2).2 →
       j ≤ i) := by
  constructor
  · intro au es
    have hg := prun_good es _ (goodP_init au)
    rcases hg.1 with hl | ⟨w, -, hl⟩ <;> simp [hl]
  · intro au es1 e1 es2 e2 i j h1 h2
    have hg1 : GoodP (prun (initPlayer au) es1).1 := prun_good _ _ (goodP_init au)
    have hc1 : (pstep (prun (initPlayer au) es1).1 e1).1.counter = j + 1 :=
      pstep_onStart h1
    have hg2 : GoodP (pstep (prun (initPlayer au) es1).1 e1).1 := pstep_good hg1 e1
    have hg3 : GoodP (prun (pstep (prun (initPlayer au) es1).1 e1).1 es2).1 :=
      prun_good _ _ hg2
    have hle := prun_counter_le es2 (pstep (prun (initPlayer au) es1).1 e1).1
    have hpos := List.count_pos_iff.mpr h2
    rcases pstep_end_count hg3 i e2 with h0 | ⟨-, hc2, -⟩
    · omega
    · omega

/-- Witness for C6's ordering property at a concrete trace. -/
theorem claim_c6_witness :
    (POut.onStart 0 ∈
       (pstep (prun (initPlayer (some ⟨0, true⟩)) []).1 (PEvent.play 0 1)).2 ∧
     POut.onEnd 0 ∈
       (pstep (prun (pstep (prun (initPlayer (some ⟨0, true⟩)) []).1
           (PEvent.play 0 1)).1 []).1 (PEvent.timeupdate 2)).2) ∧
    (0 : Nat) ≤ 0 :=
  ⟨⟨by decide, by decide⟩,
    claim_c6.2 (some ⟨0, true⟩) [] (PEvent.play 0 1) [] (PEvent.timeupdate 2) 0 0
      (by decide) (by decide)⟩

end Dictation
